import Mathlib

/-
Verification of the world model and simulation engine of the Automata GBA
cellular-automaton program (src/src/main.rs).

The embedding below is a shallow translation of the Rust source:
  * machine integers (u8, u16, usize) are modelled as Nat; the one place a
    narrowing cast occurs in the source (rules entry written to save storage
    with an `as u8` cast) is modelled with an explicit % 256, and the one
    place signed Euclidean remainder occurs (rem_euclid in new_world) is
    modelled with Int.emod;
  * the forward-star graph keeps the source field and method names
    (nodes, edges, first_outgoing_edge, next_outgoing_edge, add_node,
    add_edge, successors, living_neighbors_count_of);
  * iteration along a node's singly linked edge list is modelled with an
    explicit fuel argument equal to the number of edges of the graph; for
    every graph produced by a panic-free sequence of add_node and add_edge
    calls the linked list strictly descends through edge indices, so this
    fuel is always sufficient (proved via the Chain predicate below);
  * fallible save storage access (the agb SaveManager read and write calls)
    is modelled with Option: a read or write outside the storage returns
    none, matching an Err result in the source; the game aborts (expect)
    on such an error;
  * rendering (set_tile and sprite calls), input polling and frame timing
    are out of scope of the embedded model, so the per-node window and tile
    fields of the Rust Settings struct that feed only the renderer are kept
    but unused by the model functions.
-/

/-- Buttons of the agb input API that the program uses. Only the four
directional buttons ever occur as edge tags. -/
inductive Button where
  | A | B | START | RIGHT | LEFT | UP | DOWN
deriving DecidableEq

/-- CellState from the source: a binary tag, Dead or Live.  The Rust
discriminants are Dead = 0, Live = 1. -/
inductive CellState where
  | Dead | Live
deriving DecidableEq

/-- Rust `impl From u16 for CellState`: 0 maps to Dead, 1 maps to Live and
every other value maps to Dead. -/
def cellFromU16 (item : Nat) : CellState :=
  match item with
  | 0 => CellState.Dead
  | 1 => CellState.Live
  | _ => CellState.Dead

/-- Rust `s as u16` on a CellState value: the discriminant. -/
def cellToNat : CellState → Nat
  | CellState.Dead => 0
  | CellState.Live => 1

/-- Rust `impl Not for CellState`. -/
def cellNot : CellState → CellState
  | CellState.Dead => CellState.Live
  | CellState.Live => CellState.Dead

/-- MenuType from the source: the three menu entries of the config grid. -/
inductive MenuType where
  | New | Save | Load
deriving DecidableEq

/-- NodeType from the source: a node payload is either a cell state or a
menu entry. -/
inductive NodeType where
  | Cell (s : CellState)
  | Menu (m : MenuType)
deriving DecidableEq

/-- NodeData from the source: payload, grid coordinates, head of the
outgoing edge list. -/
structure NodeData where
  state : NodeType
  x : Nat
  y : Nat
  first_outgoing_edge : Option Nat
deriving DecidableEq

/-- EdgeData from the source: optional direction tag, target node index,
link to the next edge of the same source node. -/
structure EdgeData where
  direction : Option Button
  target : Nat
  next_outgoing_edge : Option Nat
deriving DecidableEq

/-- The forward-star graph from the source: a node arena and an edge arena. -/
structure Graph where
  nodes : List NodeData
  edges : List EdgeData
deriving DecidableEq

/-- Graph::add_node.  Appends a node with no outgoing edges and returns the
updated graph together with the index of the new node. -/
def Graph.add_node (g : Graph) (x y : Nat) (state : NodeType) : Graph × Nat :=
  ({ g with nodes := g.nodes ++ [{ state, x, y, first_outgoing_edge := none }] },
   g.nodes.length)

/-- Graph::add_edge.  Pushes a new edge whose next link is the current head
of the source node's list, then makes the new edge the head.  Indexing
`self.nodes[source]` panics in Rust when source is out of bounds; that case
is modelled by returning the graph unchanged and is ruled out by the
opsValid precondition used in the theorems. -/
def Graph.add_edge (g : Graph) (source target : Nat) (direction : Option Button) : Graph :=
  match g.nodes[source]? with
  | none => g
  | some nd =>
    { nodes := g.nodes.set source { nd with first_outgoing_edge := some g.edges.length },
      edges := g.edges ++ [{ direction, target, next_outgoing_edge := nd.first_outgoing_edge }] }

/-- Head of the outgoing edge list of a node (None for an out-of-range
node index). -/
def firstEdgeOf (g : Graph) (s : Nat) : Option Nat :=
  match g.nodes[s]? with
  | some nd => nd.first_outgoing_edge
  | none => none

/-- Walk of a node's singly linked outgoing edge list, collecting the edge
records in list order.  The fuel argument bounds the walk; the graphs built
by add_node and add_edge have strictly descending links, so fuel equal to
the number of edges is always enough (lemma chain_outEdgesFrom). -/
def outEdgesFrom (g : Graph) : Nat → Option Nat → List EdgeData
  | _, none => []
  | 0, some _ => []
  | fuel+1, some e =>
    match g.edges[e]? with
    | none => []
    | some ed => ed :: outEdgesFrom g fuel ed.next_outgoing_edge

/-- The outgoing edge records of a node, in linked-list order (most
recently added edge first). -/
def outEdgesOf (g : Graph) (s : Nat) : List EdgeData :=
  outEdgesFrom g g.edges.length (firstEdgeOf g s)

/-- Graph::successors.  The Successors iterator of the source yields the
target of each edge along the list, in list order. -/
def Graph.successors (g : Graph) (source : Nat) : List Nat :=
  (outEdgesOf g source).map (fun ed => ed.target)

/-- The value a successor node contributes to living_neighbors_count_of:
`s as u16` for a cell payload, 0 for a menu payload (the `_ => n = n` arm
of the source).  An out-of-range target would panic in Rust; it contributes
0 here and never occurs in the graphs the program builds. -/
def cellValueAt (g : Graph) (e : Nat) : Nat :=
  match g.nodes[e]? with
  | some nd =>
    match nd.state with
    | NodeType.Cell s => cellToNat s
    | _ => 0
  | none => 0

/-- Graph::living_neighbors_count_of: sums the cell values of all
successors of the node. -/
def Graph.living_neighbors_count_of (g : Graph) (source : Nat) : Nat :=
  ((g.successors source).map (cellValueAt g)).sum

/-- Whether the node at index e of the graph holds a Live cell payload. -/
def isLiveNode (g : Graph) (e : Nat) : Bool :=
  match g.nodes[e]? with
  | some nd =>
    match nd.state with
    | NodeType.Cell CellState.Live => true
    | _ => false
  | none => false

/-- Search of Cursor::move_cursor: scan the edge list from the given head
and return the target of the first edge whose direction tag equals the
requested button, or none when no edge matches.  Same fuel discipline as
outEdgesFrom. -/
def moveCursorFrom (g : Graph) (button : Button) : Nat → Option Nat → Option Nat
  | _, none => none
  | 0, some _ => none
  | fuel+1, some e =>
    match g.edges[e]? with
    | none => none
    | some ed =>
      match ed.direction with
      | some b => if b = button then some ed.target else moveCursorFrom g button fuel ed.next_outgoing_edge
      | none => moveCursorFrom g button fuel ed.next_outgoing_edge

/-- Cursor::move_cursor restricted to its effect on the cursor's node
field: the cursor relocates to the first matching edge's target and stays
put when no outgoing edge of the current node carries the requested tag. -/
def move_cursor (g : Graph) (node : Nat) (button : Button) : Nat :=
  match moveCursorFrom g button g.edges.length (firstEdgeOf g node) with
  | some t => t
  | none => node

/-- The mutable settings of the program; only the fields consumed by the
embedded model (the rule table, plus the speed and tiles fields carried
along unchanged) are kept.  rules is the Rust `[[u16; 9]; 2]`; every
theorem that needs the fixed array shape states it as a hypothesis. -/
structure Settings where
  rules : List (List Nat)
  speed : Nat
  tiles : List Nat
deriving DecidableEq

/-- Rule table lookup `rules[r][c]`.  Out-of-range indexing panics in Rust;
it yields 0 here and all uses in the program are in range. -/
def ruleAt (rules : List (List Nat)) (r c : Nat) : Nat :=
  (rules.getD r []).getD c 0

/-- The initial rule table of main: Conway's Game of Life
(birth on 3, survival on 2 or 3). -/
def conwayRulesList : List (List Nat) :=
  [[0,0,0,1,0,0,0,0,0],
   [0,0,1,1,0,0,0,0,0]]

/-- Second loop of the GameState::Running update in main: node i (counting
from index k) with a cell payload gets state
`rules[s as usize][neighbors[i] as usize].into()`; a non-cell payload is
left unchanged.  neighbors is the array filled by the first loop. -/
def stepNodes (rules : List (List Nat)) (neighbors : List Nat) : Nat → List NodeData → List NodeData
  | _, [] => []
  | k, nd :: rest =>
    (match nd.state with
     | NodeType.Cell s =>
       { nd with state := NodeType.Cell (cellFromU16 (ruleAt rules (cellToNat s) (neighbors.getD k 0))) }
     | _ => nd) :: stepNodes rules neighbors (k+1) rest

/-- The GameState::Running update of main: first compute the live-neighbor
count of every node from the current generation (the zero-initialised
neighbors array), then rewrite every node state by rule lookup. -/
def stepWorld (g : Graph) (rules : List (List Nat)) : Graph :=
  let neighbors := (List.range g.nodes.length).map (fun i => g.living_neighbors_count_of i)
  { g with nodes := stepNodes rules neighbors 0 g.nodes }

/-- Whether every node of the graph holds a Dead cell payload. -/
def allDead (g : Graph) : Bool :=
  g.nodes.all (fun nd => decide (nd.state = NodeType.Cell CellState.Dead))

/-- The marker byte save_world writes for a node state: byte value of L
(76) for a live cell, of D (68) for a dead cell, of X (88) otherwise. -/
def markerOf : NodeType → Nat
  | NodeType.Cell CellState.Live => 76
  | NodeType.Cell CellState.Dead => 68
  | _ => 88

/-- Cell byte decoding of load_world: the L marker byte (76) decodes to a
live cell and any other byte decodes to a dead cell. -/
def decodeCell (b : Nat) : NodeType :=
  if b = 76 then NodeType.Cell CellState.Live else NodeType.Cell CellState.Dead

/-- The cell-reading loop of load_world: node number k gets its state from
storage byte k (the loop of the source starts at offset 0).  A failed read
aborts with none. -/
def loadCellsFrom (st : List Nat) : Nat → List NodeData → Option (List NodeData)
  | _, [] => some []
  | k, nd :: rest => do
    let b ← st[k]?
    let rest2 ← loadCellsFrom st (k+1) rest
    some ({ nd with state := decodeCell b } :: rest2)

/-- Sequential read of n bytes starting at a given offset; none when any
read is out of range. -/
def readBytes (st : List Nat) : Nat → Nat → Option (List Nat)
  | _, 0 => some []
  | off, n+1 => do
    let b ← st[off]?
    let rest ← readBytes st (off+1) n
    some (b :: rest)

/-- Overwrite of the leading entries of a rule row with freshly read bytes,
as the rule loops of load_world do entry by entry.  In the program the byte
list always has exactly the row's length, so the whole row is replaced. -/
def storeRow : List Nat → List Nat → List Nat
  | row, [] => row
  | [], _ :: _ => []
  | _ :: row, b :: bs => b :: storeRow row bs

/-- load_world from the source.  Reads the byte at offset 0; when it is
zero nothing is mutated and the call succeeds.  Otherwise it reads one byte
per node starting at offset 0 (over the flag byte itself), decoding L to
Live and anything else to Dead, then reads the 9 bytes of rule row 0 at
offsets nodes.len() .. nodes.len()+8 and the 9 bytes of rule row 1 right
after them; rule bytes are stored verbatim (u8 to u16 conversion).  Both
rule loops of the source are bounded by rules[0].len(). -/
def load_world (st : List Nat) (g : Graph) (s : Settings) : Option (Graph × Settings) := do
  let is_save ← st[0]?
  if is_save ≠ 0 then
    let nodes2 ← loadCellsFrom st 0 g.nodes
    let len0 := (s.rules.getD 0 []).length
    let row0 ← readBytes st g.nodes.length len0
    let row1 ← readBytes st (g.nodes.length + len0) len0
    some ({ g with nodes := nodes2 },
          { s with rules := (s.rules.set 0 (storeRow (s.rules.getD 0 []) row0)).set 1
                             (storeRow (s.rules.getD 1 []) row1) })
  else
    some (g, s)

/-- Single byte write to save storage; none models a storage error (write
outside the storage region). -/
def writeAt (st : List Nat) (i v : Nat) : Option (List Nat) :=
  if i < st.length then some (st.set i v) else none

/-- Sequential write of a byte list starting at a given offset, one
prepare_write/write pair per byte as in the source loops. -/
def writeSeq : List Nat → Nat → List Nat → Option (List Nat)
  | st, _, [] => some st
  | st, k, b :: rest => do
    let st2 ← writeAt st k b
    writeSeq st2 (k+1) rest

/-- save_world from the source.  Reads the byte at offset 0; when it is
zero nothing is written and the call succeeds.  Otherwise it writes the
marker byte of every node at offsets 0 .. nodes.len()-1 (starting over the
flag byte itself), then each entry of rule row 0 as a u8 (`as u8`, i.e.
mod 256) at the next 9 offsets, then rule row 1 at the 9 offsets after
that. -/
def save_world (st : List Nat) (g : Graph) (s : Settings) : Option (List Nat) := do
  let is_save ← st[0]?
  if is_save ≠ 0 then
    let st1 ← writeSeq st 0 (g.nodes.map (fun nd => markerOf nd.state))
    let st2 ← writeSeq st1 g.nodes.length ((s.rules.getD 0 []).map (fun v => v % 256))
    let st3 ← writeSeq st2 (g.nodes.length + (s.rules.getD 0 []).length)
                ((s.rules.getD 1 []).map (fun v => v % 256))
    some st3
  else
    some st

/-- Zeroing of the first n entries of a rule row, as the nested reset loops
of the Menu(New) branch do (the inner loop bound is rules[0].len()). -/
def zeroFirst : Nat → List Nat → List Nat
  | 0, row => row
  | _+1, [] => []
  | n+1, _ :: rest => 0 :: zeroFirst n rest

/-- Single rule table store `rules[r][c] = v`. -/
def setRule (rules : List (List Nat)) (r c v : Nat) : List (List Nat) :=
  rules.set r ((rules.getD r []).set c v)

/-- The rule reset of the Menu(New) branch: zero every entry (inner bound
rules[0].len()), then set rules[0][3], rules[1][2] and rules[1][3] to 1 --
Conway's rule. -/
def resetRules (rules : List (List Nat)) : List (List Nat) :=
  let len0 := (rules.getD 0 []).length
  let z := rules.map (fun row => zeroFirst len0 row)
  setRule (setRule (setRule z 0 3 1) 1 2 1) 1 3 1

/-- Body of the Menu(New) branch of main: the loop walks over every world
node, sets its state to Cell(Dead) and (inside the same loop body) resets
the rule table to Conway's rule. -/
def selectNewAux (rules : List (List Nat)) : List NodeData → List NodeData × List (List Nat)
  | [] => ([], rules)
  | nd :: rest =>
    let rules1 := resetRules rules
    let r := selectNewAux rules1 rest
    ({ nd with state := NodeType.Cell CellState.Dead } :: r.1, r.2)

/-- Selecting the New menu entry in config mode: world grid cleared to
all-Dead, rule table reset to Conway's rule. -/
def selectNew (g : Graph) (s : Settings) : Graph × Settings :=
  let r := selectNewAux s.rules g.nodes
  ({ g with nodes := r.1 }, { s with rules := r.2 })

/-- One recorded call of the graph-building API. -/
inductive BuildOp where
  | addNodeOp (x y : Nat) (state : NodeType)
  | addEdgeOp (source target : Nat) (direction : Option Button)
deriving DecidableEq

/-- Replay of one recorded call on a graph. -/
def applyOp (g : Graph) : BuildOp → Graph
  | BuildOp.addNodeOp x y st => (g.add_node x y st).1
  | BuildOp.addEdgeOp s t d => g.add_edge s t d

/-- The graph built by a sequence of add_node and add_edge calls starting
from Graph::new (two empty arenas). -/
def build (ops : List BuildOp) : Graph :=
  ops.foldl applyOp { nodes := [], edges := [] }

/-- Number of addNodeOp entries in a call sequence. -/
def countNodes : List BuildOp → Nat
  | [] => 0
  | BuildOp.addNodeOp _ _ _ :: rest => countNodes rest + 1
  | BuildOp.addEdgeOp _ _ _ :: rest => countNodes rest

/-- Number of addEdgeOp entries in a call sequence. -/
def countEdges : List BuildOp → Nat
  | [] => 0
  | BuildOp.addNodeOp _ _ _ :: rest => countEdges rest
  | BuildOp.addEdgeOp _ _ _ :: rest => countEdges rest + 1

/-- Panic freedom of a call sequence replayed on a graph that already has k
nodes: every add_edge call names a source node that exists at that moment
(the Rust add_edge indexes self.nodes[source]). -/
def opsValid : List BuildOp → Nat → Bool
  | [], _ => true
  | BuildOp.addNodeOp _ _ _ :: rest, k => opsValid rest (k+1)
  | BuildOp.addEdgeOp s _ _ :: rest, k => decide (s < k) && opsValid rest k

/-- The (direction, target) pairs of the edges a call sequence adds with
the given source node, in call order. -/
def pairsOf (ops : List BuildOp) (s : Nat) : List (Option Button × Nat) :=
  ops.filterMap (fun op =>
    match op with
    | BuildOp.addEdgeOp s2 t d => if s2 = s then some (d, t) else none
    | _ => none)

/-- The targets of the edges a call sequence adds with the given source
node, in call order. -/
def targetsOf (ops : List BuildOp) (s : Nat) : List Nat :=
  (pairsOf ops s).map (fun p => p.2)

/-- The eight add_edge calls new_world makes for grid cell (i, j): right,
left, down and up edges tagged with the matching button, then the four
untagged diagonal edges, with the exact index arithmetic of the source
(wraparound by % and, for the x-1 offset, by rem_euclid). -/
def edgeOps8 (width height i j : Nat) : List BuildOp :=
  let n_right := (i + 1) % width + j * width
  let n_down := ((j + 1) % height) * width + i
  let n_down_right := ((j + 1) % height) * width + (i + 1) % width
  let n_down_left := ((j + 1) % height) * width + (((i : Int) - 1).emod (width : Int)).toNat
  let n := j * width + i
  [BuildOp.addEdgeOp n n_right (some Button.RIGHT),
   BuildOp.addEdgeOp n_right n (some Button.LEFT),
   BuildOp.addEdgeOp n n_down (some Button.DOWN),
   BuildOp.addEdgeOp n_down n (some Button.UP),
   BuildOp.addEdgeOp n n_down_right none,
   BuildOp.addEdgeOp n_down_right n none,
   BuildOp.addEdgeOp n n_down_left none,
   BuildOp.addEdgeOp n_down_left n none]

/-- The add_node calls of new_world: one Cell(Dead) node per grid cell i,
at coordinates (i % width, i / width). -/
def nodeOps (width height : Nat) : List BuildOp :=
  (List.range (width * height)).map (fun i => BuildOp.addNodeOp (i % width) (i / width) (NodeType.Cell CellState.Dead))

/-- The full call sequence of new_world: all nodes, then for i in 0..width,
for j in 0..height the eight edges of cell (i, j). -/
def worldOps (width height : Nat) : List BuildOp :=
  nodeOps width height ++
    (List.range width).flatMap (fun i =>
      (List.range height).flatMap (fun j => edgeOps8 width height i j))

/-- new_world from the source: the toroidal width x height grid graph,
built by replaying its add_node and add_edge calls in program order. -/
def new_world (width height : Nat) : Graph :=
  build (worldOps width height)

/-- The initial Settings value of main (Conway's rule, speed 5000,
tiles 1 and 2). -/
def conwaySettings : Settings :=
  { rules := conwayRulesList, speed := 5000, tiles := [1, 2] }

/-- Transcript of a node's outgoing edge list: Chain edges e l holds when
following the linked list from head e visits edges whose (direction,
target) pairs are exactly l, ending at a none link.  It only constrains
the edge arena, so node mutations preserve it. -/
inductive Chain (edges : List EdgeData) : Option Nat → List (Option Button × Nat) → Prop where
  | nil : Chain edges none []
  | cons (e : Nat) (ed : EdgeData) (l : List (Option Button × Nat)) :
      edges[e]? = some ed →
      Chain edges ed.next_outgoing_edge l →
      Chain edges (some e) ((ed.direction, ed.target) :: l)

/-- Predicate on recorded calls: an add_edge call with the given source
node and the given direction tag. -/
def srcDir (n : Nat) (d : Option Button) : BuildOp → Bool
  | BuildOp.addEdgeOp s2 _ d2 => decide (s2 = n) && decide (d2 = d)
  | _ => false

/-- Predicate on recorded calls: an add_edge call with the given source
node (any direction tag). -/
def srcAny (n : Nat) : BuildOp → Bool
  | BuildOp.addEdgeOp s2 _ _ => decide (s2 = n)
  | _ => false

/-- Concrete save storage for the load tests: flag byte 1, nine cell bytes
for a 3 x 3 world at offsets 0..8, rule row 0 bytes at offsets 9..17 with
first byte 2, rule row 1 bytes at offsets 18..26. -/
def storageRuleByteTwo : List Nat :=
  [1,0,0,0,0,0,0,0,0, 2,0,0,0,0,0,0,0,0, 0,0,0,0,0,0,0,0,0]

/-- Concrete save storage for the save tests: 27 bytes, all 1 (so the flag
read at offset 0 sees a present save). -/
def storageAllOnes : List Nat := List.replicate 27 1


set_option maxRecDepth 10000

/-- A map whose values are indicator values of p sums to the length of the
p-filtered list. -/
theorem sum_map_eq_length_filter (l : List Nat) (f : Nat → Nat) (p : Nat → Bool)
    (h : ∀ x, f x = if p x then 1 else 0) :
    (l.map f).sum = (l.filter p).length := by
  induction l with
  | nil => rfl
  | cons a l ih =>
    simp only [List.map_cons, List.sum_cons, List.filter_cons, h a]
    cases hp : p a <;> simp [ih] <;> omega

/-- countP distributes over flatMap as a sum of per-element counts. -/
theorem countP_flatMap (l : List Nat) (f : Nat → List BuildOp) (p : BuildOp → Bool) :
    (l.flatMap f).countP p = (l.map (fun x => (f x).countP p)).sum := by
  induction l with
  | nil => rfl
  | cons a l ih => simp [List.flatMap_cons, List.countP_append, ih]

/-- countP over a filterMap is countP of the composed predicate. -/
theorem countP_filterMap (l : List BuildOp) (f : BuildOp → Option (Option Button × Nat))
    (p : Option Button × Nat → Bool) :
    (l.filterMap f).countP p
      = l.countP (fun x => match f x with | some y => p y | none => false) := by
  induction l with
  | nil => rfl
  | cons a l ih =>
    cases hfa : f a with
    | none => simp [List.filterMap_cons, hfa, List.countP_cons, ih]
    | some y => simp [List.filterMap_cons, hfa, List.countP_cons, ih]

/-- Sum over a range of an indicator of a single point. -/
theorem sum_range_indicator (m k c : Nat) (hk : k < m) :
    ((List.range m).map (fun x => if x = k then c else 0)).sum = c := by
  induction m with
  | zero => omega
  | succ m ih =>
    rw [List.range_succ, List.map_append, List.sum_append]
    rcases Nat.lt_or_ge k m with h | h
    · rw [ih h]
      simp [Nat.ne_of_gt h]
    · have hk2 : k = m := by omega
      subst hk2
      have : ((List.range k).map (fun x => if x = k then c else 0)).sum
          = ((List.range k).map (fun _ => 0)).sum := by
        apply congrArg
        apply List.map_congr_left
        intro a ha
        simp [Nat.ne_of_lt (List.mem_range.mp ha)]
      simp [this]

/-- Sum over a range of a pointwise sum of two functions. -/
theorem sum_range_add (m : Nat) (f g : Nat → Nat) :
    ((List.range m).map (fun x => f x + g x)).sum
      = ((List.range m).map f).sum + ((List.range m).map g).sum := by
  induction m with
  | zero => rfl
  | succ m ih => rw [List.range_succ] ; simp [ih] ; omega

/-- Appending edges to the arena preserves an edge-list transcript. -/
theorem chain_append (edges more : List EdgeData) (e : Option Nat)
    (l : List (Option Button × Nat)) (h : Chain edges e l) :
    Chain (edges ++ more) e l := by
  induction h with
  | nil => exact Chain.nil
  | cons e ed l hget _ ih =>
    refine Chain.cons e ed l ?_ ih
    have he : e < edges.length := by
      by_contra hno
      rw [List.getElem?_eq_none (by omega)] at hget
      exact Option.noConfusion hget
    rw [List.getElem?_append_left he]
    exact hget

/-- With enough fuel, the fuel-bounded edge walk reproduces exactly the
transcript of the linked list. -/
theorem chain_outEdgesFrom (g : Graph) (e : Option Nat)
    (l : List (Option Button × Nat)) (h : Chain g.edges e l) :
    ∀ fuel, l.length ≤ fuel →
      (outEdgesFrom g fuel e).map (fun ed => (ed.direction, ed.target)) = l := by
  induction h with
  | nil => intro fuel _ ; cases fuel <;> rfl
  | cons e ed l hget _ ih =>
    intro fuel hfuel
    match fuel with
    | fuel + 1 =>
      simp only [outEdgesFrom, hget, List.map_cons]
      rw [ih fuel (by simp at hfuel ; omega)]

/-- Replay invariant for a panic-free call sequence on top of an arbitrary
graph: node and edge counts add up, every pre-existing node's transcript is
extended at the front by its new edges in reverse call order, and every
node created during the replay ends with exactly its new edges in reverse
call order. -/
theorem build_inv (ops : List BuildOp) : ∀ (g : Graph),
    opsValid ops g.nodes.length = true →
    ((ops.foldl applyOp g).nodes.length = g.nodes.length + countNodes ops
      ∧ (ops.foldl applyOp g).edges.length = g.edges.length + countEdges ops)
    ∧ (∀ s l, s < g.nodes.length → Chain g.edges (firstEdgeOf g s) l →
        Chain (ops.foldl applyOp g).edges (firstEdgeOf (ops.foldl applyOp g) s)
          ((pairsOf ops s).reverse ++ l))
    ∧ (∀ s, g.nodes.length ≤ s → s < (ops.foldl applyOp g).nodes.length →
        Chain (ops.foldl applyOp g).edges (firstEdgeOf (ops.foldl applyOp g) s)
          ((pairsOf ops s).reverse)) := by
  induction ops with
  | nil =>
    intro g _
    refine ⟨⟨by simp [countNodes], by simp [countEdges]⟩, ?_, ?_⟩
    · intro s l _ hc
      simpa [pairsOf] using hc
    · intro s hs1 hs2
      simp only [List.foldl_nil] at hs2
      omega
  | cons op rest ih =>
    intro g hv
    cases op with
    | addNodeOp x y st =>
      have hg1 : applyOp g (BuildOp.addNodeOp x y st)
          = { g with nodes := g.nodes ++ [{ state := st, x := x, y := y, first_outgoing_edge := none }] } := by
        simp [applyOp, Graph.add_node]
      have hv1 : opsValid rest (g.nodes.length + 1) = true := by
        simpa [opsValid] using hv
      have hlen1 : (applyOp g (BuildOp.addNodeOp x y st)).nodes.length = g.nodes.length + 1 := by
        simp [hg1]
      obtain ⟨⟨ihn, ihe⟩, ihold, ihnew⟩ := ih (applyOp g (BuildOp.addNodeOp x y st)) (by rw [hlen1] ; exact hv1)
      have hpairs : ∀ s, pairsOf (BuildOp.addNodeOp x y st :: rest) s = pairsOf rest s := by
        intro s ; simp [pairsOf]
      refine ⟨⟨?_, ?_⟩, ?_, ?_⟩
      · rw [List.foldl_cons, ihn, hlen1] ; simp [countNodes] ; omega
      · rw [List.foldl_cons, ihe] ; simp [hg1, countEdges]
      · intro s l hs hc
        rw [List.foldl_cons, hpairs]
        apply ihold s l (by omega : s < (applyOp g (BuildOp.addNodeOp x y st)).nodes.length)
        have hfe : firstEdgeOf (applyOp g (BuildOp.addNodeOp x y st)) s = firstEdgeOf g s := by
          simp [hg1, firstEdgeOf, List.getElem?_append_left hs]
        rw [hfe]
        simpa [hg1] using hc
      · intro s hs1 hs2
        rw [List.foldl_cons] at hs2 ⊢
        rw [hpairs]
        rcases Nat.eq_or_lt_of_le hs1 with he | hlt
        · have hfe : firstEdgeOf (applyOp g (BuildOp.addNodeOp x y st)) s = none := by
            subst he
            simp [hg1, firstEdgeOf, List.getElem?_concat_length]
          have := ihold s [] (by omega) (by rw [hfe] ; exact Chain.nil)
          simpa using this
        · exact ihnew s (by omega) hs2
    | addEdgeOp s0 t d =>
      have hs0 : s0 < g.nodes.length := by
        have := hv
        simp only [opsValid, Bool.and_eq_true, decide_eq_true_eq] at this
        exact this.1
      have hv1 : opsValid rest g.nodes.length = true := by
        have := hv
        simp only [opsValid, Bool.and_eq_true, decide_eq_true_eq] at this
        exact this.2
      have hnd : g.nodes[s0]? = some g.nodes[s0] := List.getElem?_eq_getElem hs0
      have hg1 : applyOp g (BuildOp.addEdgeOp s0 t d)
          = { nodes := g.nodes.set s0 { g.nodes[s0] with first_outgoing_edge := some g.edges.length },
              edges := g.edges ++ [{ direction := d, target := t,
                                     next_outgoing_edge := g.nodes[s0].first_outgoing_edge }] } := by
        simp [applyOp, Graph.add_edge, hnd]
      have hlen1 : (applyOp g (BuildOp.addEdgeOp s0 t d)).nodes.length = g.nodes.length := by
        simp [hg1]
      obtain ⟨⟨ihn, ihe⟩, ihold, ihnew⟩ := ih (applyOp g (BuildOp.addEdgeOp s0 t d)) (by rw [hlen1] ; exact hv1)
      have hpairs_ne : ∀ s, s0 ≠ s → pairsOf (BuildOp.addEdgeOp s0 t d :: rest) s = pairsOf rest s := by
        intro s hne ; simp [pairsOf, hne]
      have hfirst_g : firstEdgeOf g s0 = g.nodes[s0].first_outgoing_edge := by
        simp [firstEdgeOf, hnd]
      refine ⟨⟨?_, ?_⟩, ?_, ?_⟩
      · rw [List.foldl_cons, ihn, hlen1] ; simp [countNodes]
      · rw [List.foldl_cons, ihe] ; simp [hg1, countEdges] ; omega
      · intro s l hs hc
        rw [List.foldl_cons]
        by_cases he : s0 = s
        · subst he
          have hfe : firstEdgeOf (applyOp g (BuildOp.addEdgeOp s0 t d)) s0 = some g.edges.length := by
            simp [hg1, firstEdgeOf, List.getElem?_set_self hs0]
          have hch : Chain (applyOp g (BuildOp.addEdgeOp s0 t d)).edges
              (firstEdgeOf (applyOp g (BuildOp.addEdgeOp s0 t d)) s0) ((d, t) :: l) := by
            rw [hfe, hg1]
            refine Chain.cons g.edges.length
              { direction := d, target := t, next_outgoing_edge := g.nodes[s0].first_outgoing_edge } l
              (List.getElem?_concat_length _ _) ?_
            apply chain_append
            rw [← hfirst_g]
            exact hc
          have := ihold s0 ((d, t) :: l) (by omega) hch
          have hp : pairsOf (BuildOp.addEdgeOp s0 t d :: rest) s0 = (d, t) :: pairsOf rest s0 := by
            simp [pairsOf]
          rw [hp, List.reverse_cons, List.append_assoc]
          simpa using this
        · have hfe : firstEdgeOf (applyOp g (BuildOp.addEdgeOp s0 t d)) s = firstEdgeOf g s := by
            simp [hg1, firstEdgeOf, List.getElem?_set_ne he]
          rw [hpairs_ne s he]
          apply ihold s l (by omega)
          rw [hfe]
          simp only [hg1]
          exact chain_append _ _ _ _ hc
      · intro s hs1 hs2
        rw [List.foldl_cons] at hs2 ⊢
        rw [hpairs_ne s (by omega)]
        exact ihnew s (by omega) hs2

/-- A call sequence adds at most countEdges edges with any fixed source. -/
theorem pairsOf_length_le (ops : List BuildOp) (s : Nat) :
    (pairsOf ops s).length ≤ countEdges ops := by
  induction ops with
  | nil => simp [pairsOf, countEdges]
  | cons op rest ih =>
    cases op with
    | addNodeOp x y st => simpa [pairsOf, countEdges] using ih
    | addEdgeOp s2 t d =>
      by_cases he : s2 = s
      · subst he ; simpa [pairsOf, countEdges] using ih
      · simp only [pairsOf, countEdges, List.filterMap_cons, if_neg he]
        simp only [pairsOf] at ih
        omega

/-- The outgoing edge records of any node of a graph built by a panic-free
call sequence carry exactly the (direction, target) pairs of the add_edge
calls with that source, in reverse call order. -/
theorem build_outPairs (ops : List BuildOp) (s : Nat)
    (hv : opsValid ops 0 = true) (hs : s < (build ops).nodes.length) :
    (outEdgesOf (build ops) s).map (fun ed => (ed.direction, ed.target))
      = (pairsOf ops s).reverse := by
  have hinv := build_inv ops { nodes := [], edges := [] } (by simpa using hv)
  obtain ⟨⟨_, hedges⟩, _, hnew⟩ := hinv
  have hchain : Chain (build ops).edges (firstEdgeOf (build ops) s) ((pairsOf ops s).reverse) := by
    exact hnew s (by simp) (by simpa [build] using hs)
  have hfuel : ((pairsOf ops s).reverse).length ≤ (build ops).edges.length := by
    have h1 := pairsOf_length_le ops s
    have h2 : (build ops).edges.length = countEdges ops := by simpa [build] using hedges
    simp [h2]
    omega
  simpa [outEdgesOf, build] using chain_outEdgesFrom (build ops) _ _ (by simpa [build] using hchain) _ hfuel

/-- C6: for every graph built by a panic-free sequence of add_node and
add_edge calls and every node s of it, successors(s) yields exactly the
targets of the edges added with source s, in reverse insertion order (the
most recently added edge first). -/
theorem successors_reverse_insertion (ops : List BuildOp) (s : Nat)
    (hv : opsValid ops 0 = true) (hs : s < (build ops).nodes.length) :
    (build ops).successors s = (targetsOf ops s).reverse := by
  have h := build_outPairs ops s hv hs
  have : ((outEdgesOf (build ops) s).map (fun ed => (ed.direction, ed.target))).map (fun p => p.2)
      = ((pairsOf ops s).reverse).map (fun p => p.2) := by rw [h]
  simpa [Graph.successors, targetsOf, List.map_reverse, List.map_map, Function.comp] using this

/-- Witness for C6 on a concrete two-node graph with two edges out of
node 0: the enumeration is most-recent-first. -/
theorem successors_reverse_insertion_witness :
    opsValid [BuildOp.addNodeOp 0 0 (NodeType.Cell CellState.Dead),
              BuildOp.addNodeOp 1 0 (NodeType.Cell CellState.Dead),
              BuildOp.addEdgeOp 0 1 none,
              BuildOp.addEdgeOp 0 0 (some Button.RIGHT)] 0 = true
    ∧ 0 < (build [BuildOp.addNodeOp 0 0 (NodeType.Cell CellState.Dead),
              BuildOp.addNodeOp 1 0 (NodeType.Cell CellState.Dead),
              BuildOp.addEdgeOp 0 1 none,
              BuildOp.addEdgeOp 0 0 (some Button.RIGHT)]).nodes.length
    ∧ (build [BuildOp.addNodeOp 0 0 (NodeType.Cell CellState.Dead),
              BuildOp.addNodeOp 1 0 (NodeType.Cell CellState.Dead),
              BuildOp.addEdgeOp 0 1 none,
              BuildOp.addEdgeOp 0 0 (some Button.RIGHT)]).successors 0
        = (targetsOf [BuildOp.addNodeOp 0 0 (NodeType.Cell CellState.Dead),
              BuildOp.addNodeOp 1 0 (NodeType.Cell CellState.Dead),
              BuildOp.addEdgeOp 0 1 none,
              BuildOp.addEdgeOp 0 0 (some Button.RIGHT)] 0).reverse :=
  ⟨by decide, by decide, successors_reverse_insertion _ 0 (by decide) (by decide)⟩

/-- The scan of move_cursor agrees with finding the first edge of the walk
whose direction tag is the requested button. -/
theorem moveCursorFrom_find (g : Graph) (b : Button) :
    ∀ (fuel : Nat) (e : Option Nat),
      moveCursorFrom g b fuel e
        = ((outEdgesFrom g fuel e).find? (fun ed => decide (ed.direction = some b))).map
            (fun ed => ed.target) := by
  intro fuel
  induction fuel with
  | zero => intro e ; cases e <;> rfl
  | succ fuel ih =>
    intro e
    cases e with
    | none => rfl
    | some idx =>
      simp only [moveCursorFrom, outEdgesFrom]
      cases hge : g.edges[idx]? with
      | none => rfl
      | some ed =>
        cases hd : ed.direction with
        | none => simp [List.find?, hd, ih]
        | some b2 =>
          by_cases hb : b2 = b
          · subst hb ; simp [List.find?, hd]
          · have : ¬ ed.direction = some b := by rw [hd] ; simp [hb]
            simp [List.find?, hd, hb, this, ih]

/-- C7: move_cursor scans the current node's outgoing edges in list order
and relocates to the target of the first edge tagged with the requested
direction; when no outgoing edge carries that tag the match is none and
the node is returned unchanged, a successful no-op. -/
theorem move_cursor_first_match (g : Graph) (node : Nat) (button : Button) :
    move_cursor g node button
      = (match (outEdgesOf g node).find? (fun ed => decide (ed.direction = some button)) with
         | some ed => ed.target
         | none => node) := by
  simp only [move_cursor, outEdgesOf, moveCursorFrom_find g button g.edges.length (firstEdgeOf g node)]
  cases (outEdgesFrom g g.edges.length (firstEdgeOf g node)).find? (fun ed => decide (ed.direction = some button)) <;> rfl

/-- Helper: the live-neighbor count is the number of Live-cell successors. -/
theorem living_count_eq_filter (g : Graph) (n : Nat) :
    g.living_neighbors_count_of n = ((g.successors n).filter (fun e => isLiveNode g e)).length := by
  apply sum_map_eq_length_filter
  intro e
  have key : ∀ o : Option NodeData,
      (match o with
       | some nd =>
         match nd.state with
         | NodeType.Cell s => cellToNat s
         | _ => 0
       | none => 0)
      = if (match o with
            | some nd =>
              match nd.state with
              | NodeType.Cell CellState.Live => true
              | _ => false
            | none => false) then 1 else 0 := by
    intro o
    match o with
    | none => rfl
    | some nd =>
      match hst : nd.state with
      | NodeType.Menu m => simp [hst]
      | NodeType.Cell CellState.Live => simp [hst, cellToNat]
      | NodeType.Cell CellState.Dead => simp [hst, cellToNat]
  simpa only [cellValueAt, isLiveNode] using key g.nodes[e]?

/-- C8: living_neighbors_count_of is exactly the number of successors whose
payload is a Live cell; Dead cells, menu entries and invalid targets all
contribute zero. -/
theorem living_neighbors_count_spec (g : Graph) (n : Nat) :
    g.living_neighbors_count_of n = ((g.successors n).filter (fun e => isLiveNode g e)).length :=
  living_count_eq_filter g n

/-- Element-wise characterisation of the second update loop: node i gets
its state rewritten by rule lookup at the neighbor count recorded for it,
independent of the states the loop has already overwritten. -/
theorem stepNodes_getElem (rules : List (List Nat)) (neighbors : List Nat) :
    ∀ (nodes : List NodeData) (k i : Nat),
      (stepNodes rules neighbors k nodes)[i]?
        = (nodes[i]?).map (fun nd =>
            match nd.state with
            | NodeType.Cell s =>
              { nd with state := NodeType.Cell (cellFromU16 (ruleAt rules (cellToNat s) (neighbors.getD (k+i) 0))) }
            | _ => nd) := by
  intro nodes
  induction nodes with
  | nil => intro k i ; simp [stepNodes]
  | cons nd rest ih =>
    intro k i
    cases i with
    | zero => simp [stepNodes]
    | succ i =>
      have h2 : k + 1 + i = k + (i + 1) := by omega
      simp only [stepNodes, List.getElem?_cons_succ, ih (k+1) i, h2]

/-- In an all-Dead graph every node's live-neighbor count is zero. -/
theorem living_neighbors_count_of_allDead (g : Graph) (h : allDead g = true) (i : Nat) :
    g.living_neighbors_count_of i = 0 := by
  unfold Graph.living_neighbors_count_of
  apply List.sum_eq_zero
  intro x hx
  obtain ⟨e, _, hval⟩ := List.mem_map.mp hx
  subst hval
  unfold cellValueAt
  cases hge : g.nodes[e]? with
  | none => rfl
  | some nd =>
    have hmem : nd ∈ g.nodes := List.getElem?_mem hge
    have hd : nd.state = NodeType.Cell CellState.Dead := by
      have := (List.all_eq_true.mp h) nd hmem
      simpa using this
    simp [hd, cellToNat]

/-- C1: one simulation step is synchronous.  The first conjunct: the
post-step state of every cell node i is
rules[pre-step state of i][number of pre-step Live successors of i] (the
neighbor counts of ALL nodes are taken from the pre-step generation,
recorded before any state is overwritten).  The second conjunct: stepping
an all-Dead grid whose rules[Dead][0] entry decodes to Dead yields an
all-Dead grid. -/
theorem step_is_synchronous (g : Graph) (rules : List (List Nat)) (i : Nat) (s : CellState) :
    ((g.nodes[i]?).map NodeData.state = some (NodeType.Cell s) →
      ((stepWorld g rules).nodes[i]?).map NodeData.state
        = some (NodeType.Cell (cellFromU16 (ruleAt rules (cellToNat s)
            (((g.successors i).filter (fun e => isLiveNode g e)).length)))))
    ∧ (allDead g = true → cellFromU16 (ruleAt rules 0 0) = CellState.Dead →
        allDead (stepWorld g rules) = true) := by
  constructor
  · intro h
    obtain ⟨nd, hnd, hstate⟩ := Option.map_eq_some'.mp h
    have hi : i < g.nodes.length := by
      by_contra hno
      rw [List.getElem?_eq_none (by omega)] at hnd
      exact Option.noConfusion hnd
    have hgd : ((List.range g.nodes.length).map (fun j => g.living_neighbors_count_of j)).getD i 0
        = ((g.successors i).filter (fun e => isLiveNode g e)).length := by
      rw [List.getD_eq_getElem?_getD, List.getElem?_map, List.getElem?_range hi]
      simp [living_count_eq_filter]
    simp only [stepWorld, stepNodes_getElem, hnd, Option.map_some', Nat.zero_add, hgd, hstate]
  · intro hdead hrule
    have hz : ∀ m, ((List.range g.nodes.length).map (fun j => g.living_neighbors_count_of j)).getD m 0 = 0 := by
      intro m
      rcases Nat.lt_or_ge m g.nodes.length with hm | hm
      · rw [List.getD_eq_getElem?_getD, List.getElem?_map, List.getElem?_range hm]
        simp [living_neighbors_count_of_allDead g hdead m]
      · rw [List.getD_eq_getElem?_getD, List.getElem?_eq_none (by simpa using hm)]
        rfl
    have key : ∀ (nodes : List NodeData) (k : Nat),
        (∀ nd ∈ nodes, nd.state = NodeType.Cell CellState.Dead) →
        ∀ nd ∈ stepNodes rules ((List.range g.nodes.length).map (fun j => g.living_neighbors_count_of j)) k nodes,
          nd.state = NodeType.Cell CellState.Dead := by
      intro nodes
      induction nodes with
      | nil => intro k _ nd hmem ; simp [stepNodes] at hmem
      | cons a rest ih =>
        intro k hall nd hmem
        simp only [stepNodes, List.mem_cons] at hmem
        rcases hmem with hmem | hmem
        · have ha : a.state = NodeType.Cell CellState.Dead := hall a (by simp)
          subst hmem
          simp only [ha, cellToNat, hz k, hrule]
        · exact ih (k+1) (fun x hx => hall x (by simp [hx])) nd hmem
    have hall : ∀ nd ∈ g.nodes, nd.state = NodeType.Cell CellState.Dead := by
      intro nd hmem
      have := (List.all_eq_true.mp hdead) nd hmem
      simpa using this
    apply List.all_eq_true.mpr
    intro nd hmem
    simp only [decide_eq_true_eq]
    exact key g.nodes 0 hall nd (by simpa [stepWorld] using hmem)

/-- Witness for C1 on the 3 x 3 all-Dead world with the Conway rule table:
cell 0 steps to rules[Dead][0] decoded, and the whole grid stays Dead. -/
theorem step_is_synchronous_witness :
    ((new_world 3 3).nodes[0]?).map NodeData.state = some (NodeType.Cell CellState.Dead)
    ∧ allDead (new_world 3 3) = true
    ∧ cellFromU16 (ruleAt conwayRulesList 0 0) = CellState.Dead
    ∧ ((stepWorld (new_world 3 3) conwayRulesList).nodes[0]?).map NodeData.state
        = some (NodeType.Cell (cellFromU16 (ruleAt conwayRulesList (cellToNat CellState.Dead)
            ((((new_world 3 3).successors 0).filter (fun e => isLiveNode (new_world 3 3) e)).length))))
    ∧ allDead (stepWorld (new_world 3 3) conwayRulesList) = true :=
  ⟨by decide, by decide, by decide,
   (step_is_synchronous (new_world 3 3) conwayRulesList 0 CellState.Dead).1 (by decide),
   (step_is_synchronous (new_world 3 3) conwayRulesList 0 CellState.Dead).2 (by decide) (by decide)⟩

/-- C3: when the leading flag byte of the save stream is zero, load_world
mutates nothing and succeeds: the returned world grid and settings are
exactly its inputs. -/
theorem load_world_flag_zero_noop (st : List Nat) (g : Graph) (s : Settings)
    (h : st[0]? = some 0) : load_world st g s = some (g, s) := by
  simp [load_world, h]

/-- Witness for C3: loading from storage whose single byte is zero returns
the world and settings unchanged. -/
theorem load_world_flag_zero_noop_witness :
    ([0] : List Nat)[0]? = some 0
    ∧ load_world [0] (new_world 3 3) conwaySettings = some (new_world 3 3, conwaySettings) :=
  ⟨by decide, load_world_flag_zero_noop [0] (new_world 3 3) conwaySettings (by decide)⟩

/-- A run of in-range sequential reads yields exactly the storage slice. -/
theorem readBytes_eq (st : List Nat) :
    ∀ (n off : Nat), off + n ≤ st.length →
      readBytes st off n = some ((List.range n).map (fun k => st.getD (off + k) 0)) := by
  intro n
  induction n with
  | zero => intro off _ ; simp [readBytes]
  | succ n ih =>
    intro off hle
    have hoff : off < st.length := by omega
    have hb : st[off]? = some (st.getD off 0) := by
      rw [List.getD_eq_getElem?_getD, List.getElem?_eq_getElem hoff]
      rfl
    have hrest := ih (off + 1) (by omega)
    simp only [readBytes, hb, hrest, Option.pure_def, Option.bind_eq_bind, Option.some_bind]
    rw [List.range_succ_eq_map]
    simp only [List.map_cons, List.map_map, Option.some.injEq, List.cons.injEq]
    constructor
    · simp
    · apply List.map_congr_left
      intro a _
      simp only [Function.comp]
      have heq : off + 1 + a = off + (a + 1) := by omega
      rw [heq]
/-- The cell-reading loop succeeds whenever the storage covers all node
offsets. -/
theorem loadCellsFrom_isSome (st : List Nat) :
    ∀ (nodes : List NodeData) (k : Nat), k + nodes.length ≤ st.length →
      ∃ l, loadCellsFrom st k nodes = some l := by
  intro nodes
  induction nodes with
  | nil => intro k _ ; exact ⟨[], rfl⟩
  | cons nd rest ih =>
    intro k hle
    have hk : k < st.length := by simp at hle ; omega
    have hb : st[k]? = some (st.getD k 0) := by
      rw [List.getD_eq_getElem?_getD, List.getElem?_eq_getElem hk]
      rfl
    obtain ⟨l, hl⟩ := ih (k+1) (by simp at hle ; omega)
    refine ⟨{ nd with state := decodeCell (st.getD k 0) } :: l, ?_⟩
    simp only [loadCellsFrom, hb, hl, Option.pure_def, Option.bind_eq_bind, Option.some_bind]

/-- Overwriting a row with exactly as many bytes as it has entries replaces
it completely. -/
theorem storeRow_full : ∀ (row bs : List Nat), bs.length = row.length → storeRow row bs = bs := by
  intro row
  induction row with
  | nil => intro bs h ; cases bs with
    | nil => rfl
    | cons b bs => simp at h
  | cons a row ih =>
    intro bs h
    cases bs with
    | nil => simp at h
    | cons b bs => simp only [storeRow, List.cons.injEq] ; exact ⟨trivial, ih bs (by simpa using h)⟩


/-- C4, amended: with a present save (nonzero flag byte), load_world stores
every rule byte verbatim into the table (rule row 0 from offsets
nodes.len() .. nodes.len()+8, rule row 1 from the 9 offsets after them);
in subsequent rule lookups, CellState::from(u16) decodes a table entry to
Live exactly when the stored byte was 1, so bytes 0 and >= 2 both behave
as Dead. -/
theorem load_world_rule_bytes (st : List Nat) (g : Graph) (s : Settings) (r0 r1 : List Nat) (v : Nat)
    (hs : s.rules = [r0, r1]) (h0 : r0.length = 9) (h1 : r1.length = 9)
    (hlen : g.nodes.length + 18 ≤ st.length) (hflag : st.getD 0 0 ≠ 0) :
    (load_world st g s).map (fun p => p.2.rules)
      = some [(List.range 9).map (fun k => st.getD (g.nodes.length + k) 0),
              (List.range 9).map (fun k => st.getD (g.nodes.length + 9 + k) 0)]
    ∧ (cellFromU16 v = CellState.Live ↔ v = 1) := by
  constructor
  · have h00 : (0 : Nat) < st.length := by omega
    have hb : st[0]? = some (st.getD 0 0) := by
      rw [List.getD_eq_getElem?_getD, List.getElem?_eq_getElem h00]
      rfl
    obtain ⟨nodes2, hn2⟩ := loadCellsFrom_isSome st g.nodes 0 (by omega)
    have hlen0 : (s.rules.getD 0 []).length = 9 := by simp [hs, h0]
    have hrow0 := readBytes_eq st 9 g.nodes.length (by omega)
    have hrow1 := readBytes_eq st 9 (g.nodes.length + 9) (by omega)
    have hget0 : s.rules.getD 0 [] = r0 := by simp [hs]
    have hget1 : s.rules.getD 1 [] = r1 := by simp [hs]
    have hs0 : storeRow r0 ((List.range 9).map (fun k => st.getD (g.nodes.length + k) 0))
        = (List.range 9).map (fun k => st.getD (g.nodes.length + k) 0) :=
      storeRow_full r0 _ (by simp [h0])
    have hs1 : storeRow r1 ((List.range 9).map (fun k => st.getD (g.nodes.length + 9 + k) 0))
        = (List.range 9).map (fun k => st.getD (g.nodes.length + 9 + k) 0) :=
      storeRow_full r1 _ (by simp [h1])
    simp only [load_world, hb, Option.pure_def, Option.bind_eq_bind, Option.some_bind,
      ne_eq, hflag, not_false_eq_true, if_true, hn2, hget0, hget1, hlen0, h0, hrow0, hrow1,
      hs0, hs1, hs, Option.map_some']
    simp only [List.getD_cons_zero, List.getD_cons_succ, h0, hrow0, hrow1, Option.some_bind,
      hs0, hs1, Option.map_some']
    simp [List.set, List.getD_eq_getElem?_getD]
  · match v with
    | 0 => simp [cellFromU16]
    | 1 => simp [cellFromU16]
    | n + 2 => simp [cellFromU16]

/-- Witness for C4 on a 3 x 3 world: the loaded rule rows are exactly the
storage slices after the cell bytes, and byte value 2 is not Live. -/
theorem load_world_rule_bytes_witness :
    (load_world storageRuleByteTwo (new_world 3 3) conwaySettings).map (fun p => p.2.rules)
      = some [(List.range 9).map (fun k => storageRuleByteTwo.getD ((new_world 3 3).nodes.length + k) 0),
              (List.range 9).map (fun k => storageRuleByteTwo.getD ((new_world 3 3).nodes.length + 9 + k) 0)]
    ∧ (cellFromU16 2 = CellState.Live ↔ 2 = 1) :=
  load_world_rule_bytes storageRuleByteTwo (new_world 3 3) conwaySettings
    [0,0,0,1,0,0,0,0,0] [0,0,1,1,0,0,0,0,0] 2
    (by decide) (by decide) (by decide) (by decide) (by decide)

/-- Counterexample to C4 as stated: a present save whose first rule byte is
the nonzero value 2 loads a rule entry that behaves as Dead, not Live, in
rule lookups (CellState::from maps 2 to Dead). -/
theorem load_world_rule_bytes_counterexample :
    (load_world storageRuleByteTwo (new_world 3 3) conwaySettings).map (fun p => ruleAt p.2.rules 0 0)
      = some 2
    ∧ storageRuleByteTwo.getD 0 0 ≠ 0
    ∧ cellFromU16 2 = CellState.Dead
    ∧ CellState.Dead ≠ CellState.Live := by
  refine ⟨by decide, by decide, by decide, by decide⟩

/-- A run of in-range sequential writes splices the byte list into storage
at the given offset, leaving everything before and after unchanged. -/
theorem writeSeq_eq : ∀ (bs st : List Nat) (k : Nat), k + bs.length ≤ st.length →
    writeSeq st k bs = some (st.take k ++ bs ++ st.drop (k + bs.length)) := by
  intro bs
  induction bs with
  | nil =>
    intro st k _
    simp only [writeSeq, List.append_nil, List.length_nil, Nat.add_zero]
    rw [List.take_append_drop]
  | cons b rest ih =>
    intro st k hle
    have hk : k < st.length := by simp at hle ; omega
    have hwa : writeAt st k b = some (st.set k b) := by simp [writeAt, hk]
    have hrec := ih (st.set k b) (k+1) (by simp at hle ⊢ ; omega)
    simp only [writeSeq, hwa, Option.pure_def, Option.bind_eq_bind, Option.some_bind, hrec,
      Option.some.injEq]
    have hset : st.set k b = st.take k ++ b :: st.drop (k+1) := List.set_eq_take_cons_drop b hk
    have hlentake : (st.take k).length = k := List.length_take_of_le (by omega)
    have htake : (st.set k b).take (k+1) = st.take k ++ [b] := by
      rw [hset]
      have : k + 1 = (st.take k).length + 1 := by omega
      rw [this, List.take_append]
      simp
    have hdrop : (st.set k b).drop (k + 1 + rest.length) = st.drop (k + 1 + rest.length) :=
      List.drop_set_of_lt b st (by omega)
    rw [htake, hdrop]
    simp only [List.length_cons]
    have harith : k + (rest.length + 1) = k + 1 + rest.length := by omega
    rw [harith]
    simp [List.append_assoc]

/-- C2, amended: save_world with a present save (nonzero byte at offset 0)
writes the fixed layout [cell_state:1] x (W.H) [rule_row0:1] x 9
[rule_row1:1] x 9 starting at offset 0: one marker byte per cell in node
order, then rule row 0, then rule row 1, each rule entry truncated to a
u8.  No separate leading flag byte is written; the cell bytes begin at the
flag byte's offset and cell 0's marker (always nonzero) overwrites it. -/
theorem save_world_layout (st : List Nat) (g : Graph) (s : Settings) (r0 r1 : List Nat)
    (hs : s.rules = [r0, r1]) (h0 : r0.length = 9) (h1 : r1.length = 9)
    (hlen : g.nodes.length + 18 ≤ st.length) (hflag : st.getD 0 0 ≠ 0) :
    save_world st g s
      = some ((g.nodes.map (fun nd => markerOf nd.state))
          ++ (r0.map (fun v => v % 256)) ++ (r1.map (fun v => v % 256))
          ++ st.drop (g.nodes.length + 18)) := by
  have h00 : (0 : Nat) < st.length := by omega
  have hb : st[0]? = some (st.getD 0 0) := by
    rw [List.getD_eq_getElem?_getD, List.getElem?_eq_getElem h00]
    rfl
  have hw1 := writeSeq_eq (g.nodes.map (fun nd => markerOf nd.state)) st 0 (by simp ; omega)
  simp only [List.take_zero, List.nil_append, Nat.zero_add, List.length_map] at hw1
  set A := g.nodes.map (fun nd => markerOf nd.state) with hA
  set st1 := A ++ st.drop g.nodes.length with hst1
  have hlenA : A.length = g.nodes.length := by simp [hA]
  have hlen1 : st1.length = st.length := by
    rw [hst1, List.length_append, List.length_drop, hlenA]
    omega
  have hw2 := writeSeq_eq (r0.map (fun v => v % 256)) st1 g.nodes.length
    (by rw [List.length_map, h0, hlen1] ; omega)
  have htake1 : st1.take g.nodes.length = A := by
    rw [hst1, ← hlenA, List.take_left]
  have hdrop1 : st1.drop (g.nodes.length + (r0.map (fun v => v % 256)).length)
      = st.drop (g.nodes.length + 9) := by
    rw [hst1]
    have : g.nodes.length + (r0.map (fun v => v % 256)).length = A.length + 9 := by
      simp [hlenA, h0]
    rw [this, List.drop_append]
    rw [List.drop_drop]
  rw [htake1, hdrop1] at hw2
  set B := r0.map (fun v => v % 256) with hB
  set st2 := A ++ B ++ st.drop (g.nodes.length + 9) with hst2
  have hlenB : B.length = 9 := by simp [hB, h0]
  have hlen2 : st2.length = st.length := by
    rw [hst2, List.length_append, List.length_append, List.length_drop, hlenA, hlenB]
    omega
  have hw3 := writeSeq_eq (r1.map (fun v => v % 256)) st2 (g.nodes.length + 9)
    (by rw [List.length_map, h1, hlen2] ; omega)
  have htake2 : st2.take (g.nodes.length + 9) = A ++ B := by
    rw [hst2]
    have : g.nodes.length + 9 = (A ++ B).length := by simp [hlenA, hlenB]
    rw [this, List.take_left]
  have hdrop2 : st2.drop (g.nodes.length + 9 + (r1.map (fun v => v % 256)).length)
      = st.drop (g.nodes.length + 18) := by
    rw [hst2]
    have : g.nodes.length + 9 + (r1.map (fun v => v % 256)).length = (A ++ B).length + 9 := by
      simp [hlenA, hlenB, h1]
    rw [this, List.drop_append, List.drop_drop]
  rw [htake2, hdrop2] at hw3
  have hget0 : s.rules.getD 0 [] = r0 := by simp [hs]
  have hget1 : s.rules.getD 1 [] = r1 := by simp [hs]
  simp only [save_world, hb, Option.pure_def, Option.bind_eq_bind, Option.some_bind,
    ne_eq, hflag, not_false_eq_true, if_true, hget0, hget1, h0, ← hA, hw1, ← hst1, hw2,
    ← hB, ← hst2, hw3, Option.some.injEq]

/-- Witness for C2 (amended) on a 3 x 3 world and the Conway rule table,
saving into 27 bytes of all-ones storage. -/
theorem save_world_layout_witness :
    save_world storageAllOnes (new_world 3 3) conwaySettings
      = some (((new_world 3 3).nodes.map (fun nd => markerOf nd.state))
          ++ ([0,0,0,1,0,0,0,0,0].map (fun v => v % 256))
          ++ ([0,0,1,1,0,0,0,0,0].map (fun v => v % 256))
          ++ storageAllOnes.drop ((new_world 3 3).nodes.length + 18)) :=
  save_world_layout storageAllOnes (new_world 3 3) conwaySettings
    [0,0,0,1,0,0,0,0,0] [0,0,1,1,0,0,0,0,0]
    (by decide) (by decide) (by decide) (by decide) (by decide)

/-- Counterexample to C2 as stated: with a present save of the all-Dead
3 x 3 world, the claimed layout [flag][cell x 9][rules] would leave the
marker byte of cell 8 (value 68) at offset 9; the code instead writes rule
byte 0 (value 0) there, and writes cell 0's marker at offset 0, the
position the claim reserves for the flag byte. -/
theorem save_world_layout_counterexample :
    (save_world storageAllOnes (new_world 3 3) conwaySettings).map (fun st => st.getD 9 0) = some 0
    ∧ (save_world storageAllOnes (new_world 3 3) conwaySettings).map (fun st => st.getD 0 0) = some 68
    ∧ markerOf (NodeType.Cell CellState.Dead) = 68
    ∧ (0 : Nat) ≠ 68 := by
  refine ⟨by decide, by decide, by decide, by decide⟩

/-- C10, amended: save_world first reads the byte at offset 0 and, when it
is zero, returns success without performing any write (the storage is
returned unchanged; the borrowed grid and rule table are untouched by
construction).  It never writes a dedicated flag value, but when the flag
is nonzero it does write at offset 0: that byte is overwritten with cell
0's marker. -/
theorem save_world_flag_zero_noop (st : List Nat) (g : Graph) (s : Settings)
    (h : st[0]? = some 0) : save_world st g s = some st := by
  simp [save_world, h]

/-- Witness for C10 (amended): saving into one-byte storage holding 0 is a
successful no-op. -/
theorem save_world_flag_zero_noop_witness :
    ([0] : List Nat)[0]? = some 0
    ∧ save_world [0] (new_world 3 3) conwaySettings = some [0] :=
  ⟨by decide, save_world_flag_zero_noop [0] (new_world 3 3) conwaySettings (by decide)⟩

/-- Counterexample to C10 as stated: when the byte at offset 0 is nonzero,
save_world does write the flag byte's location: offset 0 held 1 before the
save and holds cell 0's marker byte 68 afterwards. -/
theorem save_world_writes_offset_zero :
    storageAllOnes.getD 0 0 = 1
    ∧ (save_world storageAllOnes (new_world 3 3) conwaySettings).map (fun st => st.getD 0 0) = some 68
    ∧ (68 : Nat) ≠ 1 := by
  refine ⟨by decide, by decide, by decide⟩

/-- Zeroing a row over its full length yields the all-zero row. -/
theorem zeroFirst_full : ∀ (row : List Nat), zeroFirst row.length row = List.replicate row.length 0 := by
  intro row
  induction row with
  | nil => rfl
  | cons a rest ih => simp [zeroFirst, List.replicate_succ, ih]

/-- One pass of the Menu(New) rule reset turns any 2 x 9 table into the
Conway table. -/
theorem resetRules_shape (r0 r1 : List Nat) (h0 : r0.length = 9) (h1 : r1.length = 9) :
    resetRules [r0, r1] = conwayRulesList := by
  have hz0 : zeroFirst 9 r0 = List.replicate 9 0 := by
    rw [← h0, zeroFirst_full, h0]
  have hz1 : zeroFirst 9 r1 = List.replicate 9 0 := by
    rw [← h1, zeroFirst_full, h1]
  simp only [resetRules, List.getD_cons_zero, h0, List.map_cons, List.map_nil, hz0, hz1]
  decide

/-- The rule reset fixes the Conway table. -/
theorem resetRules_conway : resetRules conwayRulesList = conwayRulesList := by decide

/-- Every node emitted by the Menu(New) loop is a Dead cell. -/
theorem selectNewAux_states : ∀ (nodes : List NodeData) (rules : List (List Nat)) (nd : NodeData),
    nd ∈ (selectNewAux rules nodes).1 → nd.state = NodeType.Cell CellState.Dead := by
  intro nodes
  induction nodes with
  | nil => intro rules nd h ; simp [selectNewAux] at h
  | cons a rest ih =>
    intro rules nd h
    simp only [selectNewAux, List.mem_cons] at h
    rcases h with h | h
    · subst h ; rfl
    · exact ih (resetRules rules) nd h

/-- Once the table is the Conway table the Menu(New) loop keeps it there. -/
theorem selectNewAux_rules_fix : ∀ (nodes : List NodeData),
    (selectNewAux conwayRulesList nodes).2 = conwayRulesList := by
  intro nodes
  induction nodes with
  | nil => rfl
  | cons a rest ih => simp only [selectNewAux, resetRules_conway, ih]

/-- C9: selecting the New menu entry in configuration mode sets every
world-grid cell to Dead and resets the rule table to Conway's canonical
rule [[0,0,0,1,0,0,0,0,0],[0,0,1,1,0,0,0,0,0]]: entry value 1 decodes to
Live (rules[Dead][3], rules[Live][2], rules[Live][3]) and entry value 0 to
Dead (all 15 remaining entries). -/
theorem select_new_resets (g : Graph) (s : Settings) (r0 r1 : List Nat)
    (hs : s.rules = [r0, r1]) (h0 : r0.length = 9) (h1 : r1.length = 9)
    (hne : 0 < g.nodes.length) :
    allDead (selectNew g s).1 = true
    ∧ (selectNew g s).2.rules = conwayRulesList
    ∧ cellFromU16 1 = CellState.Live
    ∧ cellFromU16 0 = CellState.Dead := by
  refine ⟨?_, ?_, rfl, rfl⟩
  · apply List.all_eq_true.mpr
    intro nd hmem
    simp only [decide_eq_true_eq]
    exact selectNewAux_states g.nodes s.rules nd (by simpa [selectNew] using hmem)
  · cases hn : g.nodes with
    | nil => rw [hn] at hne ; simp at hne
    | cons a rest =>
      simp only [selectNew, hn, selectNewAux, hs, resetRules_shape r0 r1 h0 h1,
        selectNewAux_rules_fix]

/-- Witness for C9 on the 3 x 3 world and the initial settings. -/
theorem select_new_resets_witness :
    allDead (selectNew (new_world 3 3) conwaySettings).1 = true
    ∧ (selectNew (new_world 3 3) conwaySettings).2.rules = conwayRulesList
    ∧ cellFromU16 1 = CellState.Live
    ∧ cellFromU16 0 = CellState.Dead :=
  select_new_resets (new_world 3 3) conwaySettings
    [0,0,0,1,0,0,0,0,0] [0,0,1,1,0,0,0,0,0]
    (by decide) (by decide) (by decide) (by decide)

/-- Decomposition of a grid node index: for a column value below the
width, b * W + a = n exactly when a is the column and b the row of n. -/
theorem cell_decomp (W : Nat) (hW : 0 < W) (a b n : Nat) (ha : a < W) :
    b * W + a = n ↔ (a = n % W ∧ b = n / W) := by
  constructor
  · intro h
    subst h
    constructor
    · rw [Nat.mul_add_mod_of_lt ha]
    · rw [Nat.mul_comm b W, Nat.mul_add_div hW, Nat.div_eq_of_lt ha]
      omega
  · rintro ⟨rfl, rfl⟩
    rw [Nat.mul_comm]
    exact Nat.div_add_mod n W

/-- Solving a wraparound offset equation: adding a fixed offset a modulo W
is a bijection of the residues, with explicit inverse adding W - a. -/
theorem shift_mod_iff (W a i c : Nat) (hW : 0 < W) (ha : a ≤ W) (hi : i < W) (hc : c < W) :
    (i + a) % W = c ↔ i = (c + (W - a)) % W := by
  have hsol : ((c + (W - a)) % W + a) % W = c := by
    rw [Nat.mod_add_mod]
    have : c + (W - a) + a = c + W := by omega
    rw [this, Nat.add_mod_right, Nat.mod_eq_of_lt hc]
  constructor
  · intro h
    have hm : (i + a) % W = ((c + (W - a)) % W + a) % W := by rw [h, hsol]
    have hcancel : i % W = (c + (W - a)) % W % W := Nat.ModEq.add_right_cancel rfl hm
    rw [Nat.mod_eq_of_lt hi, Nat.mod_mod] at hcancel
    exact hcancel
  · intro h
    rw [h, hsol]

/-- The rem_euclid offset of new_world: for a column i below the width,
(i - 1).rem_euclid(W) equals (i + (W - 1)) % W. -/
theorem emod_sub_one (W i : Nat) (hW : 0 < W) (hi : i < W) :
    (((i : Int) - 1).emod (W : Int)).toNat = (i + (W - 1)) % W := by
  have hmod : ((i : Int) - 1).emod (W : Int) = ((i : Int) - 1) % (W : Int) := rfl
  have h1 : ((i : Int) - 1) % (W : Int) = ((i : Int) - 1 + 1 * (W : Int)) % (W : Int) := by
    rw [Int.add_mul_emod_self]
  have h2 : (i : Int) - 1 + 1 * (W : Int) = ((i + (W - 1) : Nat) : Int) := by
    push_cast
    omega
  have h3 : (((i + (W - 1) : Nat) : Int)) % ((W : Nat) : Int) = (((i + (W - 1)) % W : Nat) : Int) := rfl
  rw [hmod, h1, h2, h3]
  rfl

/-- Unique source cell of the RIGHT / DOWN / diagonal-out edges: the
expression j*W+i hits node n for exactly one in-range (i, j). -/
theorem char_n (W H n i j : Nat) (hW : 0 < W) (hi : i < W) :
    j * W + i = n ↔ (i = n % W ∧ j = n / W) :=
  cell_decomp W hW i j n hi

/-- Unique source cell of the LEFT edges. -/
theorem char_right_src (W H n i j : Nat) (hW : 0 < W) (hi : i < W) :
    (i + 1) % W + j * W = n ↔ (i = (n % W + (W - 1)) % W ∧ j = n / W) := by
  rw [Nat.add_comm ((i+1) % W) (j * W)]
  rw [cell_decomp W hW ((i+1) % W) j n (Nat.mod_lt _ hW)]
  constructor
  · rintro ⟨h1, h2⟩
    exact ⟨(shift_mod_iff W 1 i (n % W) hW (by omega) hi (Nat.mod_lt _ hW)).mp h1, h2⟩
  · rintro ⟨h1, h2⟩
    exact ⟨(shift_mod_iff W 1 i (n % W) hW (by omega) hi (Nat.mod_lt _ hW)).mpr h1, h2⟩

/-- Unique source cell of the UP edges. -/
theorem char_down_src (W H n i j : Nat) (hW : 0 < W) (hH : 0 < H) (hn : n < W * H)
    (hi : i < W) (hj : j < H) :
    ((j + 1) % H) * W + i = n ↔ (i = n % W ∧ j = (n / W + (H - 1)) % H) := by
  rw [cell_decomp W hW i ((j+1) % H) n hi]
  have hdiv : n / W < H := Nat.div_lt_of_lt_mul hn
  constructor
  · rintro ⟨h1, h2⟩
    exact ⟨h1, (shift_mod_iff H 1 j (n / W) hH (by omega) hj hdiv).mp h2⟩
  · rintro ⟨h1, h2⟩
    exact ⟨h1, (shift_mod_iff H 1 j (n / W) hH (by omega) hj hdiv).mpr h2⟩

/-- Unique source cell of the up-left diagonal edges (source is the
down-right neighbor of (i, j)). -/
theorem char_down_right_src (W H n i j : Nat) (hW : 0 < W) (hH : 0 < H) (hn : n < W * H)
    (hi : i < W) (hj : j < H) :
    ((j + 1) % H) * W + (i + 1) % W = n
      ↔ (i = (n % W + (W - 1)) % W ∧ j = (n / W + (H - 1)) % H) := by
  rw [cell_decomp W hW ((i+1) % W) ((j+1) % H) n (Nat.mod_lt _ hW)]
  have hdiv : n / W < H := Nat.div_lt_of_lt_mul hn
  constructor
  · rintro ⟨h1, h2⟩
    exact ⟨(shift_mod_iff W 1 i (n % W) hW (by omega) hi (Nat.mod_lt _ hW)).mp h1,
           (shift_mod_iff H 1 j (n / W) hH (by omega) hj hdiv).mp h2⟩
  · rintro ⟨h1, h2⟩
    exact ⟨(shift_mod_iff W 1 i (n % W) hW (by omega) hi (Nat.mod_lt _ hW)).mpr h1,
           (shift_mod_iff H 1 j (n / W) hH (by omega) hj hdiv).mpr h2⟩

/-- Unique source cell of the up-right diagonal edges (source is the
down-left neighbor of (i, j), computed with rem_euclid). -/
theorem char_down_left_src (W H n i j : Nat) (hW : 0 < W) (hH : 0 < H) (hn : n < W * H)
    (hi : i < W) (hj : j < H) :
    ((j + 1) % H) * W + (((i : Int) - 1).emod (W : Int)).toNat = n
      ↔ (i = (n % W + 1) % W ∧ j = (n / W + (H - 1)) % H) := by
  rw [emod_sub_one W i hW hi]
  rw [cell_decomp W hW ((i + (W - 1)) % W) ((j+1) % H) n (Nat.mod_lt _ hW)]
  have hdiv : n / W < H := Nat.div_lt_of_lt_mul hn
  have hone : W - (W - 1) = 1 := by omega
  have hshift := shift_mod_iff W (W - 1) i (n % W) hW (by omega) hi (Nat.mod_lt _ hW)
  rw [hone] at hshift
  constructor
  · rintro ⟨h1, h2⟩
    exact ⟨hshift.mp h1, (shift_mod_iff H 1 j (n / W) hH (by omega) hj hdiv).mp h2⟩
  · rintro ⟨h1, h2⟩
    exact ⟨hshift.mpr h1, (shift_mod_iff H 1 j (n / W) hH (by omega) hj hdiv).mpr h2⟩

/-- Per-cell count of RIGHT-tagged add_edge calls with source n. -/
theorem countP_cell_right (W H i j n : Nat) :
    (edgeOps8 W H i j).countP (srcDir n (some Button.RIGHT))
      = if j * W + i = n then 1 else 0 := by
  simp only [edgeOps8, List.countP_cons, List.countP_nil, srcDir]
  by_cases c1 : j * W + i = n <;> simp [c1]

/-- Per-cell count of LEFT-tagged add_edge calls with source n. -/
theorem countP_cell_left (W H i j n : Nat) :
    (edgeOps8 W H i j).countP (srcDir n (some Button.LEFT))
      = if (i + 1) % W + j * W = n then 1 else 0 := by
  simp only [edgeOps8, List.countP_cons, List.countP_nil, srcDir]
  by_cases c2 : (i + 1) % W + j * W = n <;> simp [c2]

/-- Per-cell count of DOWN-tagged add_edge calls with source n. -/
theorem countP_cell_down (W H i j n : Nat) :
    (edgeOps8 W H i j).countP (srcDir n (some Button.DOWN))
      = if j * W + i = n then 1 else 0 := by
  simp only [edgeOps8, List.countP_cons, List.countP_nil, srcDir]
  by_cases c1 : j * W + i = n <;> simp [c1]

/-- Per-cell count of UP-tagged add_edge calls with source n. -/
theorem countP_cell_up (W H i j n : Nat) :
    (edgeOps8 W H i j).countP (srcDir n (some Button.UP))
      = if ((j + 1) % H) * W + i = n then 1 else 0 := by
  simp only [edgeOps8, List.countP_cons, List.countP_nil, srcDir]
  by_cases c3 : ((j + 1) % H) * W + i = n <;> simp [c3]

/-- Per-cell count of untagged add_edge calls with source n. -/
theorem countP_cell_none (W H i j n : Nat) :
    (edgeOps8 W H i j).countP (srcDir n none)
      = ((if j * W + i = n then 1 else 0) + (if ((j + 1) % H) * W + (i + 1) % W = n then 1 else 0))
        + ((if j * W + i = n then 1 else 0)
            + (if ((j + 1) % H) * W + (((i : Int) - 1).emod (W : Int)).toNat = n then 1 else 0)) := by
  simp only [edgeOps8, List.countP_cons, List.countP_nil, srcDir]
  by_cases c1 : j * W + i = n <;>
    by_cases c4 : ((j + 1) % H) * W + (i + 1) % W = n <;>
    by_cases c5 : ((j + 1) % H) * W + (((i : Int) - 1).emod (W : Int)).toNat = n <;>
    simp [c1, c4, c5]

/-- Per-cell count of all add_edge calls with source n. -/
theorem countP_cell_any (W H i j n : Nat) :
    (edgeOps8 W H i j).countP (srcAny n)
      = (((if j * W + i = n then 1 else 0) + (if (i + 1) % W + j * W = n then 1 else 0))
          + ((if j * W + i = n then 1 else 0) + (if ((j + 1) % H) * W + i = n then 1 else 0)))
        + (((if j * W + i = n then 1 else 0) + (if ((j + 1) % H) * W + (i + 1) % W = n then 1 else 0))
          + ((if j * W + i = n then 1 else 0)
              + (if ((j + 1) % H) * W + (((i : Int) - 1).emod (W : Int)).toNat = n then 1 else 0))) := by
  simp only [edgeOps8, List.countP_cons, List.countP_nil, srcAny]
  by_cases c1 : j * W + i = n <;>
    by_cases c2 : (i + 1) % W + j * W = n <;>
    by_cases c3 : ((j + 1) % H) * W + i = n <;>
    by_cases c4 : ((j + 1) % H) * W + (i + 1) % W = n <;>
    by_cases c5 : ((j + 1) % H) * W + (((i : Int) - 1).emod (W : Int)).toNat = n <;>
    simp [c1, c2, c3, c4, c5]

/-- Node-creation calls never count as edge calls. -/
theorem countP_nodeOps_zero (W H : Nat) (q : BuildOp → Bool)
    (hq : ∀ x y st, q (BuildOp.addNodeOp x y st) = false) :
    (nodeOps W H).countP q = 0 := by
  apply List.countP_eq_zero.mpr
  intro op hop
  obtain ⟨i, _, rfl⟩ := List.mem_map.mp hop
  simp [hq]

/-- The edges a call sequence adds with a fixed source, counted through the
filterMap. -/
theorem pairsOf_length_countP (ops : List BuildOp) (n : Nat) :
    (pairsOf ops n).length = ops.countP (srcAny n) := by
  induction ops with
  | nil => rfl
  | cons op rest ih =>
    cases op with
    | addNodeOp x y st => simpa [pairsOf, List.countP_cons, srcAny] using ih
    | addEdgeOp s2 t d =>
      by_cases he : s2 = n
      · subst he
        simp only [pairsOf, List.filterMap_cons, if_pos rfl, List.length_cons, List.countP_cons]
        simp only [pairsOf] at ih
        simp [ih, srcAny]
      · simp only [pairsOf, List.filterMap_cons, if_neg he, List.countP_cons]
        simp only [pairsOf] at ih
        simp [ih, srcAny, he]

/-- Counting tagged pairs of a call sequence equals counting its add_edge
calls with that source and tag. -/
theorem countP_pairsOf (ops : List BuildOp) (n : Nat) (d : Option Button) :
    (pairsOf ops n).countP (fun pr => decide (pr.1 = d)) = ops.countP (srcDir n d) := by
  rw [pairsOf, countP_filterMap]
  apply List.countP_congr
  intro op _
  cases op with
  | addNodeOp x y st => rfl
  | addEdgeOp s2 t d2 =>
    by_cases he : s2 = n
    · subst he ; simp [srcDir]
    · simp [srcDir, he]

/-- A grid coordinate pair indexes a node of the W x H grid. -/
theorem grid_lt (W H col row : Nat) (hc : col < W) (hr : row < H) :
    row * W + col < W * H := by
  have h1 : row * W + col < (row + 1) * W := by
    rw [Nat.succ_mul]
    omega
  have h2 : (row + 1) * W ≤ H * W := Nat.mul_le_mul_right W (by omega)
  rw [Nat.mul_comm H W] at h2
  omega

/-- The rem_euclid wraparound lands inside the row. -/
theorem emod_toNat_lt (W i : Nat) (hW : 0 < W) :
    (((i : Int) - 1).emod (W : Int)).toNat < W := by
  have h0 : (0 : Int) ≤ ((i : Int) - 1).emod (W : Int) :=
    Int.emod_nonneg _ (by exact_mod_cast Nat.pos_iff_ne_zero.mp hW)
  have h1 : ((i : Int) - 1).emod (W : Int) < (W : Int) :=
    Int.emod_lt_of_pos _ (by exact_mod_cast hW)
  omega

/-- Every call of the edge phase of new_world is an add_edge call whose
source is a valid node of the W x H grid. -/
theorem edge_src_bound (W H : Nat) (hW : 0 < W) (hH : 0 < H) :
    ∀ op ∈ (List.range W).flatMap (fun i => (List.range H).flatMap (fun j => edgeOps8 W H i j)),
      ∃ s t d, op = BuildOp.addEdgeOp s t d ∧ s < W * H := by
  intro op hop
  obtain ⟨i, hi, hop2⟩ := List.mem_flatMap.mp hop
  obtain ⟨j, hj, hop3⟩ := List.mem_flatMap.mp hop2
  have hiW : i < W := List.mem_range.mp hi
  have hjH : j < H := List.mem_range.mp hj
  have b1 : j * W + i < W * H := grid_lt W H i j hiW hjH
  have b2 : (i + 1) % W + j * W < W * H := by
    have := grid_lt W H ((i + 1) % W) j (Nat.mod_lt _ hW) hjH
    omega
  have b3 : ((j + 1) % H) * W + i < W * H := grid_lt W H i ((j + 1) % H) hiW (Nat.mod_lt _ hH)
  have b4 : ((j + 1) % H) * W + (i + 1) % W < W * H :=
    grid_lt W H ((i + 1) % W) ((j + 1) % H) (Nat.mod_lt _ hW) (Nat.mod_lt _ hH)
  have b5 : ((j + 1) % H) * W + (((i : Int) - 1).emod (W : Int)).toNat < W * H :=
    grid_lt W H ((((i : Int) - 1).emod (W : Int)).toNat) ((j + 1) % H) (emod_toNat_lt W i hW) (Nat.mod_lt _ hH)
  simp only [edgeOps8, List.mem_cons, List.not_mem_nil, or_false] at hop3
  rcases hop3 with h | h | h | h | h | h | h | h <;> subst h
  · exact ⟨_, _, _, rfl, b1⟩
  · exact ⟨_, _, _, rfl, b2⟩
  · exact ⟨_, _, _, rfl, b1⟩
  · exact ⟨_, _, _, rfl, b3⟩
  · exact ⟨_, _, _, rfl, b1⟩
  · exact ⟨_, _, _, rfl, b4⟩
  · exact ⟨_, _, _, rfl, b1⟩
  · exact ⟨_, _, _, rfl, b5⟩

/-- Validity splits over concatenation of call sequences. -/
theorem opsValid_append : ∀ (l1 l2 : List BuildOp) (k : Nat),
    opsValid (l1 ++ l2) k = (opsValid l1 k && opsValid l2 (k + countNodes l1)) := by
  intro l1
  induction l1 with
  | nil => intro l2 k ; simp [opsValid, countNodes]
  | cons op rest ih =>
    intro l2 k
    cases op with
    | addNodeOp x y st =>
      simp only [List.cons_append, opsValid, countNodes, List.append_eq]
      rw [ih l2 (k+1)]
      have h2 : k + 1 + countNodes rest = k + (countNodes rest + 1) := by omega
      rw [h2]
    | addEdgeOp s t d =>
      simp only [List.cons_append, opsValid, countNodes, List.append_eq]
      rw [ih l2 k, Bool.and_assoc]

/-- The node phase of new_world is always valid and creates W*H nodes. -/
theorem nodeOps_valid_count (W H : Nat) :
    (∀ k, opsValid (nodeOps W H) k = true) ∧ countNodes (nodeOps W H) = W * H := by
  have key : ∀ (l : List Nat),
      (∀ k, opsValid (l.map (fun i =>
          BuildOp.addNodeOp (i % W) (i / W) (NodeType.Cell CellState.Dead))) k = true)
      ∧ countNodes (l.map (fun i =>
          BuildOp.addNodeOp (i % W) (i / W) (NodeType.Cell CellState.Dead))) = l.length := by
    intro l
    induction l with
    | nil => exact ⟨fun k => rfl, rfl⟩
    | cons a rest ih =>
      refine ⟨fun k => ?_, ?_⟩
      · simpa [opsValid] using ih.1 (k+1)
      · simp only [List.map_cons, countNodes, List.length_cons, ih.2]
  unfold nodeOps
  exact ⟨(key _).1, by rw [(key _).2, List.length_range]⟩

/-- A sequence of edge calls whose sources are all below k is valid at k
and creates no nodes. -/
theorem edgeList_valid_count (l : List BuildOp) (k : Nat)
    (h : ∀ op ∈ l, ∃ s t d, op = BuildOp.addEdgeOp s t d ∧ s < k) :
    opsValid l k = true ∧ countNodes l = 0 := by
  induction l with
  | nil => exact ⟨rfl, rfl⟩
  | cons op rest ih =>
    obtain ⟨s, t, d, rfl, hs⟩ := h op (by simp)
    obtain ⟨hv, hc⟩ := ih (fun op hop => h op (by simp [hop]))
    refine ⟨?_, ?_⟩
    · simp [opsValid, hs, hv]
    · simpa [countNodes] using hc

/-- The full new_world call sequence is panic free. -/
theorem worldOps_valid (W H : Nat) (hW : 0 < W) (hH : 0 < H) :
    opsValid (worldOps W H) 0 = true := by
  unfold worldOps
  rw [opsValid_append]
  have hn := nodeOps_valid_count W H
  have he := edgeList_valid_count
    ((List.range W).flatMap (fun i => (List.range H).flatMap (fun j => edgeOps8 W H i j)))
    (W * H) (edge_src_bound W H hW hH)
  simp [hn.1, hn.2, he.1]

/-- Concatenation splits the node count of a call sequence. -/
theorem countNodes_append : ∀ (l1 l2 : List BuildOp),
    countNodes (l1 ++ l2) = countNodes l1 + countNodes l2 := by
  intro l1
  induction l1 with
  | nil => intro l2 ; simp [countNodes]
  | cons op rest ih =>
    intro l2
    cases op with
    | addNodeOp x y st =>
      simp only [List.cons_append, countNodes, List.append_eq, ih]
      omega
    | addEdgeOp s t d =>
      simp only [List.cons_append, countNodes, List.append_eq, ih]

/-- Node accounting of the full new_world call sequence. -/
theorem worldOps_countNodes (W H : Nat) (hW : 0 < W) (hH : 0 < H) :
    countNodes (worldOps W H) = W * H := by
  unfold worldOps
  rw [countNodes_append]
  have hn := nodeOps_valid_count W H
  have he := edgeList_valid_count
    ((List.range W).flatMap (fun i => (List.range H).flatMap (fun j => edgeOps8 W H i j)))
    (W * H) (edge_src_bound W H hW hH)
  rw [hn.2, he.2]
  omega

/-- The node count of the built world grid. -/
theorem new_world_nodes_length (W H : Nat) (hW : 0 < W) (hH : 0 < H) :
    (new_world W H).nodes.length = W * H := by
  have hinv := build_inv (worldOps W H) { nodes := [], edges := [] }
    (by simpa using worldOps_valid W H hW hH)
  have := hinv.1.1
  simpa [new_world, build, worldOps_countNodes W H hW hH] using this

/-- A doubly indexed indicator with a unique in-range solution sums to 1
over the whole grid of index pairs. -/
theorem nested_indicator (W H : Nat) (f : Nat → Nat → Nat) (n a b : Nat)
    (ha : a < W) (hb : b < H)
    (hch : ∀ i j, i < W → j < H → (f i j = n ↔ (i = a ∧ j = b))) :
    ((List.range W).map (fun i => ((List.range H).map (fun j => if f i j = n then 1 else 0)).sum)).sum = 1 := by
  have step1 : ∀ i ∈ List.range W,
      ((List.range H).map (fun j => if f i j = n then 1 else 0)).sum
        = if i = a then 1 else 0 := by
    intro i hi
    have hiW := List.mem_range.mp hi
    by_cases hia : i = a
    · subst hia
      have hpt : ∀ j ∈ List.range H, (if f i j = n then (1:Nat) else 0) = (if j = b then 1 else 0) := by
        intro j hj
        have hjH := List.mem_range.mp hj
        by_cases hjb : j = b
        · subst hjb
          simp [(hch i j hiW hjH).mpr ⟨rfl, rfl⟩]
        · have hne : ¬ f i j = n := fun hf => hjb ((hch i j hiW hjH).mp hf).2
          simp [hne, hjb]
      rw [List.map_congr_left hpt, sum_range_indicator H b 1 hb]
      simp
    · have hpt : ∀ j ∈ List.range H, (if f i j = n then (1:Nat) else 0) = 0 := by
        intro j hj
        have hjH := List.mem_range.mp hj
        have hne : ¬ f i j = n := fun hf => hia ((hch i j hiW hjH).mp hf).1
        simp [hne]
      rw [List.map_congr_left hpt]
      simp [hia]
  rw [List.map_congr_left step1]
  exact sum_range_indicator W a 1 ha

/-- Nested range sums split over pointwise addition. -/
theorem nested_sum_eq (W H : Nat) (f g : Nat → Nat → Nat) (a b : Nat)
    (hf : ((List.range W).map (fun i => ((List.range H).map (fun j => f i j)).sum)).sum = a)
    (hg : ((List.range W).map (fun i => ((List.range H).map (fun j => g i j)).sum)).sum = b) :
    ((List.range W).map (fun i => ((List.range H).map (fun j => f i j + g i j)).sum)).sum = a + b := by
  rw [← hf, ← hg]
  have hinner : ∀ i ∈ List.range W,
      ((List.range H).map (fun j => f i j + g i j)).sum
        = ((List.range H).map (fun j => f i j)).sum + ((List.range H).map (fun j => g i j)).sum :=
    fun i _ => sum_range_add H (fun j => f i j) (fun j => g i j)
  rw [List.map_congr_left hinner]
  exact sum_range_add W _ _

/-- Bridge: tag counts over a node's out-edge list of the built world equal
tag counts over the add_edge calls of the build sequence. -/
theorem new_world_countP_dir (W H n : Nat) (d : Option Button)
    (hW : 0 < W) (hH : 0 < H) (hn : n < W * H) :
    (outEdgesOf (new_world W H) n).countP (fun ed => decide (ed.direction = d))
      = (worldOps W H).countP (srcDir n d) := by
  have hlt : n < (build (worldOps W H)).nodes.length := by
    have := new_world_nodes_length W H hW hH
    unfold new_world at this
    omega
  have hpairs := build_outPairs (worldOps W H) n (worldOps_valid W H hW hH) hlt
  unfold new_world
  have h1 : (outEdgesOf (build (worldOps W H)) n).countP (fun ed => decide (ed.direction = d))
      = ((outEdgesOf (build (worldOps W H)) n).map (fun ed => (ed.direction, ed.target))).countP
          (fun pr => decide (pr.1 = d)) := by
    rw [List.countP_map]
    rfl
  rw [h1, hpairs, List.countP_reverse, countP_pairsOf]

/-- Bridge: the out-degree of a node of the built world equals the number
of add_edge calls of the build sequence with that source. -/
theorem new_world_length_countP (W H n : Nat) (hW : 0 < W) (hH : 0 < H) (hn : n < W * H) :
    (outEdgesOf (new_world W H) n).length = (worldOps W H).countP (srcAny n) := by
  have hlt : n < (build (worldOps W H)).nodes.length := by
    have := new_world_nodes_length W H hW hH
    unfold new_world at this
    omega
  have hpairs := build_outPairs (worldOps W H) n (worldOps_valid W H hW hH) hlt
  unfold new_world
  have h1 : (outEdgesOf (build (worldOps W H)) n).length
      = ((outEdgesOf (build (worldOps W H)) n).map (fun ed => (ed.direction, ed.target))).length := by
    rw [List.length_map]
  rw [h1, hpairs, List.length_reverse, pairsOf_length_countP]

/-- Counting over the whole new_world call sequence reduces to the nested
per-cell sums (node-creation calls contribute nothing). -/
theorem worldOps_countP_split (W H : Nat) (q : BuildOp → Bool)
    (hq : ∀ x y st, q (BuildOp.addNodeOp x y st) = false) :
    (worldOps W H).countP q
      = ((List.range W).map (fun i => ((List.range H).map (fun j => (edgeOps8 W H i j).countP q)).sum)).sum := by
  unfold worldOps
  rw [List.countP_append, countP_nodeOps_zero W H q hq, countP_flatMap]
  simp only [countP_flatMap]
  omega

/-- C5: for all grid sizes W, H with W, H at least 3, every node of the
graph built by new_world has exactly 8 outgoing edges: exactly one tagged
RIGHT, one LEFT, one DOWN, one UP, and exactly four untagged diagonal
edges. -/
theorem new_world_out_degree (W H n : Nat) (hW : 3 ≤ W) (hH : 3 ≤ H) (hn : n < W * H) :
    (outEdgesOf (new_world W H) n).length = 8
    ∧ (outEdgesOf (new_world W H) n).countP (fun ed => decide (ed.direction = some Button.RIGHT)) = 1
    ∧ (outEdgesOf (new_world W H) n).countP (fun ed => decide (ed.direction = some Button.LEFT)) = 1
    ∧ (outEdgesOf (new_world W H) n).countP (fun ed => decide (ed.direction = some Button.DOWN)) = 1
    ∧ (outEdgesOf (new_world W H) n).countP (fun ed => decide (ed.direction = some Button.UP)) = 1
    ∧ (outEdgesOf (new_world W H) n).countP (fun ed => decide (ed.direction = none)) = 4 := by
  have hW0 : 0 < W := by omega
  have hH0 : 0 < H := by omega
  have hmodW : n % W < W := Nat.mod_lt _ hW0
  have hmodW1 : (n % W + (W - 1)) % W < W := Nat.mod_lt _ hW0
  have hmodW2 : (n % W + 1) % W < W := Nat.mod_lt _ hW0
  have hdiv : n / W < H := Nat.div_lt_of_lt_mul hn
  have hmodH1 : (n / W + (H - 1)) % H < H := Nat.mod_lt _ hH0
  have hS1 : ((List.range W).map (fun i => ((List.range H).map
      (fun j => if j * W + i = n then 1 else 0)).sum)).sum = 1 :=
    nested_indicator W H (fun i j => j * W + i) n (n % W) (n / W) hmodW hdiv
      (fun i j hi _ => char_n W H n i j hW0 hi)
  have hS2 : ((List.range W).map (fun i => ((List.range H).map
      (fun j => if (i + 1) % W + j * W = n then 1 else 0)).sum)).sum = 1 :=
    nested_indicator W H (fun i j => (i + 1) % W + j * W) n ((n % W + (W - 1)) % W) (n / W)
      hmodW1 hdiv (fun i j hi _ => char_right_src W H n i j hW0 hi)
  have hS3 : ((List.range W).map (fun i => ((List.range H).map
      (fun j => if ((j + 1) % H) * W + i = n then 1 else 0)).sum)).sum = 1 :=
    nested_indicator W H (fun i j => ((j + 1) % H) * W + i) n (n % W) ((n / W + (H - 1)) % H)
      hmodW hmodH1 (fun i j hi hj => char_down_src W H n i j hW0 hH0 hn hi hj)
  have hS4 : ((List.range W).map (fun i => ((List.range H).map
      (fun j => if ((j + 1) % H) * W + (i + 1) % W = n then 1 else 0)).sum)).sum = 1 :=
    nested_indicator W H (fun i j => ((j + 1) % H) * W + (i + 1) % W) n
      ((n % W + (W - 1)) % W) ((n / W + (H - 1)) % H)
      hmodW1 hmodH1 (fun i j hi hj => char_down_right_src W H n i j hW0 hH0 hn hi hj)
  have hS5 : ((List.range W).map (fun (i : Nat) => ((List.range H).map
      (fun j => if ((j + 1) % H) * W + (((i : Int) - 1).emod (W : Int)).toNat = n then 1 else 0)).sum)).sum = 1 :=
    nested_indicator W H (fun i j => ((j + 1) % H) * W + (((i : Int) - 1).emod (W : Int)).toNat) n
      ((n % W + 1) % W) ((n / W + (H - 1)) % H)
      hmodW2 hmodH1 (fun i j hi hj => char_down_left_src W H n i j hW0 hH0 hn hi hj)
  have hT12 : ((List.range W).map (fun i => ((List.range H).map
      (fun j => (if j * W + i = n then 1 else 0) + (if (i + 1) % W + j * W = n then 1 else 0))).sum)).sum = 2 :=
    nested_sum_eq W H _ _ 1 1 hS1 hS2
  have hT13 : ((List.range W).map (fun i => ((List.range H).map
      (fun j => (if j * W + i = n then 1 else 0) + (if ((j + 1) % H) * W + i = n then 1 else 0))).sum)).sum = 2 :=
    nested_sum_eq W H _ _ 1 1 hS1 hS3
  have hT14 : ((List.range W).map (fun i => ((List.range H).map
      (fun j => (if j * W + i = n then 1 else 0) + (if ((j + 1) % H) * W + (i + 1) % W = n then 1 else 0))).sum)).sum = 2 :=
    nested_sum_eq W H _ _ 1 1 hS1 hS4
  have hT15 : ((List.range W).map (fun (i : Nat) => ((List.range H).map
      (fun j => (if j * W + i = n then 1 else 0)
        + (if ((j + 1) % H) * W + (((i : Int) - 1).emod (W : Int)).toNat = n then 1 else 0))).sum)).sum = 2 :=
    nested_sum_eq W H _ _ 1 1 hS1 hS5
  have hQ1 : ((List.range W).map (fun i => ((List.range H).map
      (fun j => ((if j * W + i = n then 1 else 0) + (if (i + 1) % W + j * W = n then 1 else 0))
        + ((if j * W + i = n then 1 else 0) + (if ((j + 1) % H) * W + i = n then 1 else 0)))).sum)).sum = 4 :=
    nested_sum_eq W H _ _ 2 2 hT12 hT13
  have hQ2 : ((List.range W).map (fun (i : Nat) => ((List.range H).map
      (fun j => ((if j * W + i = n then 1 else 0) + (if ((j + 1) % H) * W + (i + 1) % W = n then 1 else 0))
        + ((if j * W + i = n then 1 else 0)
            + (if ((j + 1) % H) * W + (((i : Int) - 1).emod (W : Int)).toNat = n then 1 else 0)))).sum)).sum = 4 :=
    nested_sum_eq W H _ _ 2 2 hT14 hT15
  refine ⟨?_, ?_, ?_, ?_, ?_, ?_⟩
  · rw [new_world_length_countP W H n hW0 hH0 hn,
      worldOps_countP_split W H (srcAny n) (fun x y st => rfl)]
    simp only [countP_cell_any]
    exact nested_sum_eq W H _ _ 4 4 hQ1 hQ2
  · rw [show (fun ed => decide (ed.direction = some Button.RIGHT)) =
        (fun (ed : EdgeData) => decide (ed.direction = some Button.RIGHT)) from rfl,
      new_world_countP_dir W H n (some Button.RIGHT) hW0 hH0 hn,
      worldOps_countP_split W H (srcDir n (some Button.RIGHT)) (fun x y st => rfl)]
    simp only [countP_cell_right]
    exact hS1
  · rw [new_world_countP_dir W H n (some Button.LEFT) hW0 hH0 hn,
      worldOps_countP_split W H (srcDir n (some Button.LEFT)) (fun x y st => rfl)]
    simp only [countP_cell_left]
    exact hS2
  · rw [new_world_countP_dir W H n (some Button.DOWN) hW0 hH0 hn,
      worldOps_countP_split W H (srcDir n (some Button.DOWN)) (fun x y st => rfl)]
    simp only [countP_cell_down]
    exact hS1
  · rw [new_world_countP_dir W H n (some Button.UP) hW0 hH0 hn,
      worldOps_countP_split W H (srcDir n (some Button.UP)) (fun x y st => rfl)]
    simp only [countP_cell_up]
    exact hS3
  · rw [new_world_countP_dir W H n none hW0 hH0 hn,
      worldOps_countP_split W H (srcDir n none) (fun x y st => rfl)]
    simp only [countP_cell_none]
    exact hQ2

/-- Witness for C5 on the 3 x 3 world at node 0. -/
theorem new_world_out_degree_witness :
    (outEdgesOf (new_world 3 3) 0).length = 8
    ∧ (outEdgesOf (new_world 3 3) 0).countP (fun ed => decide (ed.direction = some Button.RIGHT)) = 1
    ∧ (outEdgesOf (new_world 3 3) 0).countP (fun ed => decide (ed.direction = some Button.LEFT)) = 1
    ∧ (outEdgesOf (new_world 3 3) 0).countP (fun ed => decide (ed.direction = some Button.DOWN)) = 1
    ∧ (outEdgesOf (new_world 3 3) 0).countP (fun ed => decide (ed.direction = some Button.UP)) = 1
    ∧ (outEdgesOf (new_world 3 3) 0).countP (fun ed => decide (ed.direction = none)) = 4 :=
  new_world_out_degree 3 3 0 (by decide) (by decide) (by decide)
